import Mathlib

/-!
A shallow embedding of the toy register-assembly interpreter in `start.py`.

Pure Python functions become Lean functions; the shared mutable
`runtime_state` object becomes an explicit `RuntimeState` value threaded
through the opcode handlers; exceptions become `Except.error`; the
host expression evaluator invoked by the assign opcode (Python `eval`)
is an external collaborator and is passed in as a parameter `ev`.
-/

namespace AuroraHw

/-- Scalar values produced by the expression evaluator and stored in
registers (integers, booleans, strings; enough for the semantics the
claims quantify over). -/
inductive Value where
  | int (n : Int)
  | bool (b : Bool)
  | str (s : String)
deriving DecidableEq, Repr

/-- Numeric view of a value, mirroring that Python `==` identifies
`True`/`False` with `1`/`0`. -/
def pyNum : Value → Option Int
  | .int n => some n
  | .bool b => some (if b then 1 else 0)
  | .str _ => none

/-- Python `==` on the modelled values. -/
def pyEq (a b : Value) : Bool :=
  match pyNum a, pyNum b with
  | some m, some n => m = n
  | _, _ =>
    match a, b with
    | .str s, .str t => s = t
    | _, _ => false

/-- Python `str()` of a value, as printed by the print opcode. -/
def pyStr : Value → String
  | .int n => toString n
  | .bool b => if b then "True" else "False"
  | .str s => s

/-- Keys of a Python-dict model (association list in insertion order). -/
def keysOf {α : Type} (d : List (String × α)) : List String :=
  d.map Prod.fst

/-- Python `d[k] = v`: overwrite in place if the key exists, otherwise
append at the end (insertion order is preserved). -/
def dictInsert {α : Type} (d : List (String × α)) (k : String) (v : α) :
    List (String × α) :=
  if k ∈ keysOf d then d.map (fun p => if p.1 = k then (k, v) else p)
  else d ++ [(k, v)]

/-- Python `d.get(k)` / `d[k]`: first (and only) binding of the key. -/
def lookup? {α : Type} : List (String × α) → String → Option α
  | [], _ => none
  | p :: rest, k => if p.1 = k then some p.2 else lookup? rest k

/-- Python `d.get(k, default)`. -/
def getD {α : Type} (d : List (String × α)) (k : String) (dflt : α) : α :=
  match lookup? d k with
  | some v => v
  | none => dflt

/-- Characters stripped by Python `str.strip()` (ASCII fragment). -/
def isPyWhitespace (c : Char) : Bool :=
  c = ' ' || c = '\t' || c = '\n' || c = '\r' || c = '\x0b' || c = '\x0c'

/-- Characters matched by the regex class `\w` (ASCII fragment). -/
def isWordChar (c : Char) : Bool :=
  c.isAlphanum || c = '_'

/-- Python `line.strip()` on the character list. -/
def pyStrip (l : List Char) : List Char :=
  ((l.dropWhile isPyWhitespace).reverse.dropWhile isPyWhitespace).reverse

/-- Python `line.replace("\t", "")`. -/
def removeTabs (l : List Char) : List Char :=
  l.filter (fun c => !(c = '\t'))

/-- The per-line normalization done by `prepare_data`:
`line.strip()` followed by `line.replace("\t", "")`. -/
def normLine (s : String) : String :=
  ⟨removeTabs (pyStrip s.data)⟩

/-- Python `re.match(r"^\w+:\s*$", line)`: one or more word characters,
a colon, then only whitespace to the end.  Since `:` is not a word
character, the maximal word-character run is the only candidate for
`\w+`. -/
def matchesLabelPattern (s : String) : Bool :=
  !(s.data.takeWhile isWordChar).isEmpty &&
  (match s.data.dropWhile isWordChar with
   | ':' :: t => t.all isPyWhitespace
   | _ => false)

/-- Python `line.rstrip(":")`: drop all trailing colon characters. -/
def rstripColon (s : String) : String :=
  ⟨(s.data.reverse.dropWhile (fun c => c = ':')).reverse⟩

/-- The loop body of `Interpreter.prepare_data`: walk the raw lines,
keep the normalized non-empty ones, and record each label-declaration
line in the label dictionary under the index the retained line itself
occupies (`line_number_to_write` is incremented only after the label is
recorded). -/
def prepareDataAux : List String → List String → List (String × Nat) → Nat →
    List String × List (String × Nat)
  | [], trimmed, labels, _ => (trimmed, labels)
  | l :: rest, trimmed, labels, w =>
    let line := normLine l
    if line = "" then prepareDataAux rest trimmed labels w
    else
      prepareDataAux rest (trimmed ++ [line])
        (if matchesLabelPattern line
         then dictInsert labels (rstripColon line) w
         else labels) (w + 1)

/-- `Interpreter.prepare_data`: note that `labels0` is the
`labels_dict` already stored on the interpreter object (empty at
construction, but carried over if `prepare_data` is invoked again). -/
def prepare_data (labels0 : List (String × Nat)) (lines : List String) :
    List String × List (String × Nat) :=
  prepareDataAux lines [] labels0 0

/-- The normalized instruction sequence on its own (specification-side
decomposition of `prepare_data`, used to state and prove lemmas). -/
def normalize : List String → List String
  | [] => []
  | l :: rest =>
    let line := normLine l
    if line = "" then normalize rest else line :: normalize rest

/-- The sequence of `labels_dict[label] = index` assignments performed
by `prepare_data` starting at write index `w` (specification-side
decomposition of `prepare_data`). -/
def opsFrom : Nat → List String → List (String × Nat)
  | _, [] => []
  | w, l :: rest =>
    let line := normLine l
    if line = "" then opsFrom w rest
    else if matchesLabelPattern line
         then (rstripColon line, w) :: opsFrom (w + 1) rest
         else opsFrom (w + 1) rest

/-- Replay a list of dict assignments in order. -/
def buildDict {α : Type} (d : List (String × α)) (ops : List (String × α)) :
    List (String × α) :=
  ops.foldl (fun d p => dictInsert d p.1 p.2) d

/-- Value of the last assignment to a key in a list of dict
assignments. -/
def lastVal {α : Type} : List (String × α) → String → Option α
  | [], _ => none
  | p :: rest, k =>
    match lastVal rest k with
    | some v => some v
    | none => if p.1 = k then some p.2 else none

/-- Overwrite every entry of a dict with the last assigned value for its
key, when there is one. -/
def applyLast {α : Type} (ops : List (String × α)) (d : List (String × α)) :
    List (String × α) :=
  d.map (fun p =>
    match lastVal ops p.1 with
    | some v => (p.1, v)
    | none => p)

/-- States of the `shlex` lexer as configured by `tokenize_line`
(`posix=False`, `whitespace_split=True`): between tokens, inside an
unquoted word, inside a quoted token, or skipping a `#` comment
(`readline` modelled as skipping up to the next newline before resuming
in the saved state). -/
inductive LexState where
  | ws
  | word
  | quote (q : Char)
  | comment (resume : LexState)
deriving DecidableEq, Repr

/-- Whitespace for `shlex` (its default `whitespace` attribute). -/
def shlexWhitespace (c : Char) : Bool :=
  c = ' ' || c = '\t' || c = '\r' || c = '\n'

/-- The two `shlex` quote characters. -/
def isQuoteChar (c : Char) : Bool :=
  c = Char.ofNat 39 || c = '"'

/-- The `shlex` token scanner with `posix=False`, `whitespace_split=True`,
commenters `#`: `tok` is the token being accumulated, `acc` the tokens
already produced.  Quote characters open a quoted token only at token
start and the quotes are retained in the token; an unquoted `#` discards
the rest of the line; an unterminated quote raises
`ValueError("No closing quotation")`. -/
def lexRun : List Char → LexState → List Char → List (List Char) →
    Except String (List (List Char))
  | [], .ws, _, acc => .ok acc
  | [], .word, tok, acc => .ok (acc ++ [tok])
  | [], .quote _, _, _ => .error "No closing quotation"
  | [], .comment .word, tok, acc => .ok (acc ++ [tok])
  | [], .comment _, _, acc => .ok acc
  | c :: rest, .ws, tok, acc =>
    if shlexWhitespace c then lexRun rest .ws tok acc
    else if c = '#' then lexRun rest (.comment .ws) tok acc
    else if isQuoteChar c then lexRun rest (.quote c) [c] acc
    else lexRun rest .word [c] acc
  | c :: rest, .word, tok, acc =>
    if shlexWhitespace c then lexRun rest .ws [] (acc ++ [tok])
    else if c = '#' then lexRun rest (.comment .word) tok acc
    else lexRun rest .word (tok ++ [c]) acc
  | c :: rest, .quote q, tok, acc =>
    if c = q then lexRun rest .ws [] (acc ++ [tok ++ [c]])
    else lexRun rest (.quote q) (tok ++ [c]) acc
  | c :: rest, .comment resume, tok, acc =>
    if c = '\n' then lexRun rest resume tok acc
    else lexRun rest (.comment resume) tok acc

/-- The state component of `lexRun` on its own. -/
def stateRun : List Char → LexState → LexState
  | [], st => st
  | c :: rest, .ws =>
    if shlexWhitespace c then stateRun rest .ws
    else if c = '#' then stateRun rest (.comment .ws)
    else if isQuoteChar c then stateRun rest (.quote c)
    else stateRun rest .word
  | c :: rest, .word =>
    if shlexWhitespace c then stateRun rest .ws
    else if c = '#' then stateRun rest (.comment .word)
    else stateRun rest .word
  | c :: rest, .quote q =>
    if c = q then stateRun rest .ws else stateRun rest (.quote q)
  | c :: rest, .comment resume =>
    if c = '\n' then stateRun rest resume
    else stateRun rest (.comment resume)

/-- True when the lexer is not inside a quoted token. -/
def notInQuote : LexState → Bool
  | .quote _ => false
  | _ => true

/-- `Interpreter.tokenize_line`. -/
def tokenize_line (line : String) : Except String (List String) :=
  match lexRun line.data .ws [] [] with
  | .error e => .error e
  | .ok toks => .ok (toks.map (fun t => ⟨t⟩))

/-- The shared mutable `RuntimeState` object: registers, program
counter, call stack. -/
structure RuntimeState where
  registers : List (String × Value)
  pc : Nat
  stack : List Nat
deriving DecidableEq, Repr

/-- `RuntimeState.update_register`. -/
def update_register (st : RuntimeState) (register : String) (value : Value) :
    RuntimeState :=
  { st with registers := dictInsert st.registers register value }

/-- Result of one opcode handler: the runtime state afterwards, the
value the handler returns as the next line number (Python `None` when
`RETURN` finds an empty stack), and the lines printed. -/
structure CmdResult where
  st : RuntimeState
  ptr : Option Nat
  out : List String
deriving DecidableEq, Repr

/-- Python `re.match(r"^R[0-9]$", register)`: in Python `$` also matches
just before one final newline, hence the second pattern (tokens from
`tokenize_line` never contain a newline, so it is unreachable from the
loop). -/
def validRegisterName (s : String) : Bool :=
  match s.data with
  | ['R', d] => d.isDigit
  | ['R', d, '\n'] => d.isDigit
  | _ => false

/-- `Interpreter.find_label`: dictionary lookup, `KeyError` when the
label is absent. -/
def find_label (labels : List (String × Nat)) (key : String) :
    Except String Nat :=
  match lookup? labels key with
  | some v => .ok v
  | none => .error ("KeyError: key " ++ key ++ " not found in the dictionary.")

/-- `LetCommand.execute`: validate the register name, evaluate the
joined expression tokens against the registers via the host evaluator
`ev`, store the result, fall through. -/
def letCommand (ev : String → List (String × Value) → Except String Value)
    (st : RuntimeState) (register : String) (expressions : List String) :
    Except String CmdResult :=
  if validRegisterName register then
    match ev (String.intercalate " " expressions) st.registers with
    | .error e => .error e
    | .ok value => .ok ⟨update_register st register value, some (st.pc + 1), []⟩
  else
    .error ("Invalid register: " ++ register ++
      ". Register must be in the range [R0, R9].")

/-- `IfCommand.execute`: all four arguments must be truthy (non-empty);
registers missing from the store compare as the integer `0`; on
equality jump to the label, otherwise fall through. -/
def ifCommand (labels : List (String × Nat)) (st : RuntimeState)
    (register1 comparison register2 label : String) :
    Except String CmdResult :=
  if ([register1, comparison, register2, label].filter
        (fun a => !(a = ""))).length ≠ 4 then
    .error "IF command expects exactly four arguments."
  else if pyEq (getD st.registers register1 (Value.int 0))
               (getD st.registers register2 (Value.int 0)) then
    match find_label labels label with
    | .ok n => .ok ⟨st, some n, []⟩
    | .error e => .error e
  else
    .ok ⟨st, some (st.pc + 1), []⟩

/-- `JumpCommand.execute`. -/
def jumpCommand (labels : List (String × Nat)) (st : RuntimeState)
    (label : String) : Except String CmdResult :=
  if label = "" then .error "JUMP command expects a non-empty label."
  else
    match find_label labels label with
    | .ok n => .ok ⟨st, some n, []⟩
    | .error e => .error e

/-- `CallCommand.execute`: resolve the label exactly as `JUMP` does
(so a failed resolution pushes nothing), then push `pc + 1` onto the
call stack (Python `list.append`: at the end) and jump. -/
def callCommand (labels : List (String × Nat)) (st : RuntimeState)
    (label : String) : Except String CmdResult :=
  match jumpCommand labels st label with
  | .error e => .error e
  | .ok r => .ok ⟨{ r.st with stack := r.st.stack ++ [r.st.pc + 1] }, r.ptr, r.out⟩

/-- `PrintCommand.execute`: print the register value, or the sentinel
string when the register is unset, and fall through. -/
def printCommand (st : RuntimeState) (register : String) :
    Except String CmdResult :=
  if register = "" then .error "PRINT command expects a non-empty register."
  else
    .ok ⟨st, some (st.pc + 1),
      [pyStr (getD st.registers register (Value.str "Register not found"))]⟩

/-- `ReturnCommand.execute`: pop the last pushed value when the stack is
non-empty (Python `list.pop`: from the end); otherwise fall off the
function, returning Python `None` and leaving the state untouched. -/
def returnCommand (st : RuntimeState) : Except String CmdResult :=
  if st.stack.length > 0 then
    .ok ⟨{ st with stack := st.stack.dropLast }, st.stack.getLast?, []⟩
  else
    .ok ⟨st, none, []⟩

/-- The keys of `Interpreter.commands`. -/
def commandNames : List String :=
  ["LET", "IF", "JUMP", "CALL", "PRINT", "RETURN"]

/-- Dispatch `command.execute(*command_args)`: a wrong argument count
for a handler raises `TypeError` at the call. -/
def dispatch (labels : List (String × Nat))
    (ev : String → List (String × Value) → Except String Value)
    (st : RuntimeState) (name : String) (args : List String) :
    Except String CmdResult :=
  if name = "LET" then
    match args with
    | register :: expressions => letCommand ev st register expressions
    | [] => .error "TypeError: missing required argument"
  else if name = "IF" then
    match args with
    | [r1, c, r2, l] => ifCommand labels st r1 c r2 l
    | _ => .error "TypeError: wrong argument count"
  else if name = "JUMP" then
    match args with
    | [l] => jumpCommand labels st l
    | _ => .error "TypeError: wrong argument count"
  else if name = "CALL" then
    match args with
    | [l] => callCommand labels st l
    | _ => .error "TypeError: wrong argument count"
  else if name = "PRINT" then
    match args with
    | [r] => printCommand st r
    | _ => .error "TypeError: wrong argument count"
  else if name = "RETURN" then
    match args with
    | [] => returnCommand st
    | _ => .error "TypeError: wrong argument count"
  else .error "unknown command"

/-- The filter the loop applies to `tokens[1:]`:
`token not in (" ", ":=")`. -/
def filterCommandArgs (tokens : List String) : List String :=
  tokens.filter (fun token => !(token = " " || token = ":="))

/-- Python `command_name.endswith(":")`. -/
def endsWithColon (s : String) : Bool :=
  s.data.getLast? = some ':'

/-- One iteration of the body of `Interpreter.execute`'s while loop:
set `pc`, pre-increment the local line number, tokenize (`tokens[0]` on
an empty token list raises `IndexError`), recompute `command_args`
unless the first token is a label declaration (otherwise the previous
iteration's value — `none` models the variable being still unbound),
and dispatch when the first token names a command.  Errors carry the
state at the raise point. -/
def execStep (labels : List (String × Nat))
    (ev : String → List (String × Value) → Except String Value)
    (lines : List String) (st : RuntimeState) (lineNumber : Nat)
    (commandArgs : Option (List String)) :
    Except (RuntimeState × String)
      (RuntimeState × Option Nat × Option (List String) × List String) :=
  let line := lines.getD lineNumber ""
  let st1 := { st with pc := lineNumber }
  match tokenize_line line with
  | .error e => .error (st1, e)
  | .ok [] => .error (st1, "IndexError: list index out of range")
  | .ok (commandName :: rest) =>
    let commandArgs1 :=
      if endsWithColon commandName then commandArgs
      else some (filterCommandArgs rest)
    if commandName ∈ commandNames then
      match commandArgs1 with
      | none => .error (st1, "NameError: name command_args is not defined")
      | some args =>
        match dispatch labels ev st1 commandName args with
        | .error e => .error (st1, e)
        | .ok r => .ok (r.st, r.ptr, commandArgs1, r.out)
    else .ok (st1, some (lineNumber + 1), commandArgs1, [])

/-- How a run of the execution loop ends: the line number left the
program (normal termination), an exception propagated, or the supplied
fuel ran out (the source loop can run forever). -/
inductive LoopOutcome where
  | done (st : RuntimeState) (out : List String)
  | error (st : RuntimeState) (out : List String) (msg : String)
  | fuelOut (st : RuntimeState) (out : List String)
deriving DecidableEq, Repr

/-- The while loop of `Interpreter.execute`, fuelled.  The loop variable
is an `Option Nat` because a handler can return Python `None`
(`RETURN` on an empty stack): evaluating `None < len(lines)` then
raises `TypeError`. -/
def execLoop (labels : List (String × Nat))
    (ev : String → List (String × Value) → Except String Value)
    (lines : List String) :
    Nat → Option Nat → Option (List String) → RuntimeState → List String →
    LoopOutcome
  | 0, _, _, st, out => .fuelOut st out
  | fuel + 1, lineNumber?, commandArgs, st, out =>
    match lineNumber? with
    | none =>
      .error st out "TypeError: not supported between instances of NoneType and int"
    | some ln =>
      if ln < lines.length then
        match execStep labels ev lines st ln commandArgs with
        | .error (st1, e) => .error st1 out e
        | .ok (st1, ln1, args1, o) =>
          execLoop labels ev lines fuel ln1 args1 st1 (out ++ o)
      else .done st out

/-- A trivial stand-in for the host expression evaluator, used to
instantiate statements at concrete inputs. -/
def evConst : String → List (String × Value) → Except String Value :=
  fun _ _ => .ok (Value.int 0)

/-! ### Dictionary lemmas -/

theorem keysOf_cons {α : Type} (p : String × α) (d : List (String × α)) :
    keysOf (p :: d) = p.1 :: keysOf d := rfl

theorem keysOf_dictInsert_of_mem {α : Type} {d : List (String × α)} {k : String}
    (v : α) (h : k ∈ keysOf d) : keysOf (dictInsert d k v) = keysOf d := by
  unfold dictInsert
  rw [if_pos h]
  unfold keysOf
  rw [List.map_map]
  apply List.map_congr_left
  intro p _
  by_cases hp : p.1 = k
  · simp [Function.comp, hp]
  · simp [Function.comp, hp]

theorem keysOf_dictInsert_of_not_mem {α : Type} {d : List (String × α)} {k : String}
    (v : α) (h : k ∉ keysOf d) : keysOf (dictInsert d k v) = keysOf d ++ [k] := by
  unfold dictInsert
  rw [if_neg h]
  unfold keysOf
  simp

theorem mem_keysOf_dictInsert_self {α : Type} (d : List (String × α)) (k : String)
    (v : α) : k ∈ keysOf (dictInsert d k v) := by
  by_cases h : k ∈ keysOf d
  · rw [keysOf_dictInsert_of_mem v h]; exact h
  · rw [keysOf_dictInsert_of_not_mem v h]; simp

theorem keysOf_subset_dictInsert {α : Type} (d : List (String × α)) (k : String)
    (v : α) : keysOf d ⊆ keysOf (dictInsert d k v) := by
  by_cases h : k ∈ keysOf d
  · rw [keysOf_dictInsert_of_mem v h]
    exact fun x hx => hx
  · rw [keysOf_dictInsert_of_not_mem v h]
    exact List.subset_append_left _ _

theorem buildDict_nil {α : Type} (d : List (String × α)) : buildDict d [] = d := rfl

theorem buildDict_cons {α : Type} (d : List (String × α)) (op : String × α)
    (ops : List (String × α)) :
    buildDict d (op :: ops) = buildDict (dictInsert d op.1 op.2) ops := rfl

theorem keysOf_subset_buildDict {α : Type} (ops : List (String × α)) :
    ∀ d : List (String × α), keysOf d ⊆ keysOf (buildDict d ops) := by
  induction ops with
  | nil => exact fun d x hx => hx
  | cons op ops ih =>
    intro d x hx
    rw [buildDict_cons]
    exact ih _ (keysOf_subset_dictInsert d op.1 op.2 hx)

theorem fst_mem_keysOf_buildDict {α : Type} (ops : List (String × α)) :
    ∀ (d : List (String × α)) (p : String × α), p ∈ ops →
    p.1 ∈ keysOf (buildDict d ops) := by
  induction ops with
  | nil => intro d p hp; cases hp
  | cons op ops ih =>
    intro d p hp
    rw [buildDict_cons]
    rcases List.mem_cons.mp hp with rfl | hp
    · exact keysOf_subset_buildDict ops _ (mem_keysOf_dictInsert_self d p.1 p.2)
    · exact ih _ p hp

theorem snd_eq_of_mem_dictInsert {α : Type} {d : List (String × α)} {k : String}
    {v : α} {p : String × α} (hp : p ∈ dictInsert d k v) (hk : p.1 = k) :
    p.2 = v := by
  unfold dictInsert at hp
  by_cases hm : k ∈ keysOf d
  · rw [if_pos hm] at hp
    rcases List.mem_map.mp hp with ⟨q, _, hq⟩
    by_cases hqk : q.1 = k
    · rw [if_pos hqk] at hq; rw [← hq]
    · rw [if_neg hqk] at hq; rw [← hq] at hk; exact absurd hk hqk
  · rw [if_neg hm] at hp
    rcases List.mem_append.mp hp with h | h
    · exact absurd (hk ▸ List.mem_map_of_mem Prod.fst h) hm
    · rw [List.mem_singleton.mp h]

theorem mem_of_mem_dictInsert_ne {α : Type} {d : List (String × α)} {k : String}
    {v : α} {p : String × α} (hp : p ∈ dictInsert d k v) (hk : p.1 ≠ k) :
    p ∈ d := by
  unfold dictInsert at hp
  by_cases hm : k ∈ keysOf d
  · rw [if_pos hm] at hp
    rcases List.mem_map.mp hp with ⟨q, hqd, hq⟩
    by_cases hqk : q.1 = k
    · rw [if_pos hqk] at hq
      rw [← hq] at hk
      exact absurd rfl hk
    · rw [if_neg hqk] at hq; rw [← hq]; exact hqd
  · rw [if_neg hm] at hp
    rcases List.mem_append.mp hp with h | h
    · exact h
    · rw [List.mem_singleton.mp h] at hk
      exact absurd rfl hk

theorem lastVal_cons {α : Type} (op : String × α) (ops : List (String × α))
    (k : String) :
    lastVal (op :: ops) k =
      match lastVal ops k with
      | some v => some v
      | none => if op.1 = k then some op.2 else none := rfl

theorem applyLast_nil {α : Type} (d : List (String × α)) : applyLast [] d = d := by
  unfold applyLast
  have h : ∀ p ∈ d,
      (match lastVal ([] : List (String × α)) p.1 with
       | some v => (p.1, v)
       | none => p) = p := fun p _ => rfl
  exact (List.map_congr_left h).trans (List.map_id' d)

theorem buildDict_eq_applyLast {α : Type} (ops : List (String × α)) :
    ∀ d : List (String × α), (∀ p ∈ ops, p.1 ∈ keysOf d) →
    buildDict d ops = applyLast ops d := by
  induction ops with
  | nil => intro d _; rw [buildDict_nil, applyLast_nil]
  | cons op ops ih =>
    intro d h
    have hop : op.1 ∈ keysOf d := h op (List.mem_cons_self op ops)
    have hops : ∀ p ∈ ops, p.1 ∈ keysOf (dictInsert d op.1 op.2) := by
      intro p hp
      rw [keysOf_dictInsert_of_mem op.2 hop]
      exact h p (List.mem_cons_of_mem op hp)
    rw [buildDict_cons, ih _ hops]
    unfold applyLast dictInsert
    rw [if_pos hop, List.map_map]
    apply List.map_congr_left
    intro p _
    by_cases hp : p.1 = op.1
    · cases hlv : lastVal ops op.1 with
      | some v => simp [Function.comp, hp, lastVal_cons, hlv]
      | none => simp [Function.comp, hp, lastVal_cons, hlv]
    · have hcons : lastVal (op :: ops) p.1 = lastVal ops p.1 := by
        rw [lastVal_cons]
        cases hlv : lastVal ops p.1 <;> simp [Ne.symm hp, hlv]
      simp only [Function.comp, if_neg hp, hcons]

theorem mem_buildDict {α : Type} (ops : List (String × α)) :
    ∀ (d : List (String × α)) (p : String × α), p ∈ buildDict d ops →
    lastVal ops p.1 = some p.2 ∨ (lastVal ops p.1 = none ∧ p ∈ d) := by
  induction ops with
  | nil => exact fun d p hp => Or.inr ⟨rfl, hp⟩
  | cons op ops ih =>
    intro d p hp
    rw [buildDict_cons] at hp
    rcases ih _ p hp with h | ⟨hnone, hmem⟩
    · left; rw [lastVal_cons, h]
    · by_cases hk : p.1 = op.1
      · left
        rw [lastVal_cons, hnone]
        have h2 := snd_eq_of_mem_dictInsert hmem hk
        simp [hk, h2]
      · right
        refine ⟨?_, mem_of_mem_dictInsert_ne hmem hk⟩
        rw [lastVal_cons, hnone]
        simp [Ne.symm hk]

theorem buildDict_idem {α : Type} (ops : List (String × α)) :
    buildDict (buildDict [] ops) ops = buildDict [] ops := by
  rw [buildDict_eq_applyLast ops _ (fun p hp => fst_mem_keysOf_buildDict ops [] p hp)]
  unfold applyLast
  have h : ∀ p ∈ buildDict ([] : List (String × α)) ops,
      (match lastVal ops p.1 with
       | some v => (p.1, v)
       | none => p) = p := by
    intro p hp
    rcases mem_buildDict ops [] p hp with h | ⟨_, hmem⟩
    · rw [h]
    · cases hmem
  exact (List.map_congr_left h).trans (List.map_id' _)

theorem lookup?_isSome_iff {α : Type} (d : List (String × α)) (k : String) :
    (lookup? d k).isSome = true ↔ k ∈ keysOf d := by
  induction d with
  | nil => simp [lookup?, keysOf]
  | cons p rest ih =>
    by_cases hp : p.1 = k
    · simp [lookup?, keysOf_cons, hp]
    · simp [lookup?, keysOf_cons, hp, ih, Ne.symm hp]

theorem lookup?_map_over {α : Type} (d : List (String × α)) (k kq : String)
    (v : α) :
    lookup? (d.map (fun p => if p.1 = k then (k, v) else p)) kq =
      if kq = k then (lookup? d k).map (fun _ => v) else lookup? d kq := by
  induction d with
  | nil => by_cases hq : kq = k <;> simp [lookup?, hq]
  | cons p rest ih =>
    by_cases hp : p.1 = k
    · by_cases hq : kq = k
      · subst hq; simp [lookup?, hp, ih]
      · simp [lookup?, hp, hq, ih, Ne.symm hq]
    · by_cases hq : kq = k
      · subst hq
        simp [lookup?, hp, ih]
      · by_cases hpq : p.1 = kq <;> simp [lookup?, hp, hq, hpq, ih]

theorem lookup?_append_single {α : Type} (d : List (String × α)) (k kq : String)
    (v : α) (hm : k ∉ keysOf d) :
    lookup? (d ++ [(k, v)]) kq = if kq = k then some v else lookup? d kq := by
  induction d with
  | nil => by_cases hq : kq = k <;> simp [lookup?, hq, Ne.symm, eq_comm]
  | cons p rest ih =>
    rw [keysOf_cons, List.mem_cons] at hm
    push_neg at hm
    by_cases hpq : p.1 = kq
    · have hq : ¬kq = k := by rw [← hpq]; exact fun h => hm.1 h.symm
      simp [lookup?, hpq, hq]
    · simp [lookup?, hpq, ih hm.2]

theorem lookup?_dictInsert {α : Type} (d : List (String × α)) (k kq : String)
    (v : α) :
    lookup? (dictInsert d k v) kq = if kq = k then some v else lookup? d kq := by
  unfold dictInsert
  by_cases hm : k ∈ keysOf d
  · rw [if_pos hm, lookup?_map_over]
    by_cases hq : kq = k
    · rw [if_pos hq, if_pos hq]
      rcases Option.isSome_iff_exists.mp ((lookup?_isSome_iff d k).mpr hm) with ⟨w, hw⟩
      rw [hw]; rfl
    · rw [if_neg hq, if_neg hq]
  · rw [if_neg hm, lookup?_append_single d k kq v hm]

theorem lookup?_buildDict {α : Type} (ops : List (String × α)) :
    ∀ (d : List (String × α)) (k : String),
    lookup? (buildDict d ops) k =
      match lastVal ops k with
      | some v => some v
      | none => lookup? d k := by
  induction ops with
  | nil => intro d k; rfl
  | cons op ops ih =>
    intro d k
    rw [buildDict_cons, ih, lastVal_cons]
    cases hlv : lastVal ops k with
    | some v => rfl
    | none =>
      rw [lookup?_dictInsert]
      by_cases hq : k = op.1
      · simp [hq]
      · simp [hq, Ne.symm hq]

theorem lastVal_append {α : Type} (a b : List (String × α)) (k : String) :
    lastVal (a ++ b) k =
      match lastVal b k with
      | some v => some v
      | none => lastVal a k := by
  induction a with
  | nil =>
    rw [List.nil_append]
    cases h : lastVal b k <;> simp [h, lastVal]
  | cons p rest ih =>
    rw [List.cons_append, lastVal_cons, ih, lastVal_cons]
    cases hb : lastVal b k <;> cases hr : lastVal rest k <;> simp [hb, hr]

theorem lastVal_eq_none {α : Type} (ops : List (String × α)) (k : String)
    (h : k ∉ keysOf ops) : lastVal ops k = none := by
  induction ops with
  | nil => rfl
  | cons p rest ih =>
    rw [keysOf_cons, List.mem_cons] at h
    push_neg at h
    rw [lastVal_cons, ih h.2]
    simp [Ne.symm h.1]

/-! ### Preprocessor lemmas -/

theorem prepareDataAux_decomp (ls : List String) :
    ∀ (trimmed : List String) (labels : List (String × Nat)) (w : Nat),
    prepareDataAux ls trimmed labels w =
      (trimmed ++ normalize ls, buildDict labels (opsFrom w ls)) := by
  induction ls with
  | nil => intro t d w; simp [prepareDataAux, normalize, opsFrom, buildDict]
  | cons l rest ih =>
    intro t d w
    by_cases he : normLine l = ""
    · simp [prepareDataAux, normalize, opsFrom, he, ih]
    · by_cases hm : matchesLabelPattern (normLine l)
      · simp [prepareDataAux, normalize, opsFrom, he, hm, ih, buildDict_cons]
      · simp [prepareDataAux, normalize, opsFrom, he, hm, ih]

theorem prepare_data_eq (labels0 : List (String × Nat)) (lines : List String) :
    prepare_data labels0 lines =
      (normalize lines, buildDict labels0 (opsFrom 0 lines)) := by
  unfold prepare_data
  rw [prepareDataAux_decomp]
  simp

theorem normalize_append (a b : List String) :
    normalize (a ++ b) = normalize a ++ normalize b := by
  induction a with
  | nil => rfl
  | cons l rest ih => by_cases he : normLine l = "" <;> simp [normalize, he, ih]

theorem opsFrom_append (a : List String) :
    ∀ (w : Nat) (b : List String),
    opsFrom w (a ++ b) = opsFrom w a ++ opsFrom (w + (normalize a).length) b := by
  induction a with
  | nil => intro w b; simp [opsFrom, normalize]
  | cons l rest ih =>
    intro w b
    by_cases he : normLine l = ""
    · simp [opsFrom, normalize, he, ih]
    · have harith : w + 1 + (normalize rest).length =
          w + ((normalize rest).length + 1) := by omega
      by_cases hm : matchesLabelPattern (normLine l) <;>
        simp [opsFrom, normalize, he, hm, ih, harith]

theorem normalize_eq_nil (ls : List String) (h : ∀ l ∈ ls, normLine l = "") :
    normalize ls = [] := by
  induction ls with
  | nil => rfl
  | cons l rest ih =>
    rw [normalize]
    simp [h l (List.mem_cons_self l rest),
      ih (fun x hx => h x (List.mem_cons_of_mem l hx))]

theorem opsFrom_eq_nil (ls : List String) (h : ∀ l ∈ ls, normLine l = "") (w : Nat) :
    opsFrom w ls = [] := by
  induction ls generalizing w with
  | nil => rfl
  | cons l rest ih =>
    rw [opsFrom]
    simp [h l (List.mem_cons_self l rest),
      ih (fun x hx => h x (List.mem_cons_of_mem l hx)) w]

theorem mem_keysOf_opsFrom (ls : List String) :
    ∀ (w : Nat) (k : String), k ∈ keysOf (opsFrom w ls) →
    ∃ l ∈ ls, matchesLabelPattern (normLine l) = true ∧
      rstripColon (normLine l) = k := by
  induction ls with
  | nil => intro w k h; simp [opsFrom, keysOf] at h
  | cons l rest ih =>
    intro w k h
    by_cases he : normLine l = ""
    · rw [opsFrom] at h
      simp [he] at h
      rcases ih w k h with ⟨l2, hl2, hm2, hr2⟩
      exact ⟨l2, List.mem_cons_of_mem l hl2, hm2, hr2⟩
    · by_cases hm : matchesLabelPattern (normLine l)
      · rw [opsFrom] at h
        simp [he, hm, keysOf_cons] at h
        rcases h with h | h
        · exact ⟨l, List.mem_cons_self l rest, hm, h.symm⟩
        · rcases ih (w + 1) k h with ⟨l2, hl2, hm2, hr2⟩
          exact ⟨l2, List.mem_cons_of_mem l hl2, hm2, hr2⟩
      · rw [opsFrom] at h
        simp [he, hm] at h
        rcases ih (w + 1) k h with ⟨l2, hl2, hm2, hr2⟩
        exact ⟨l2, List.mem_cons_of_mem l hl2, hm2, hr2⟩

/-! ### Character and label-line lemmas -/

theorem dropWhile_eq_self_of_all {p : Char → Bool} (l : List Char)
    (h : ∀ c ∈ l, p c = false) : l.dropWhile p = l := by
  cases l with
  | nil => rfl
  | cons c rest =>
    rw [List.dropWhile_cons, h c (List.mem_cons_self c rest)]
    simp

theorem wordChar_not_ws {c : Char} (h : isWordChar c = true) :
    isPyWhitespace c = false := by
  cases hw : isPyWhitespace c
  · rfl
  · exfalso
    simp only [isPyWhitespace, Bool.or_eq_true, decide_eq_true_eq] at hw
    rcases hw with ((((rfl | rfl) | rfl) | rfl) | rfl) | rfl <;>
      exact absurd h (by decide)

theorem wordChar_ne_colon {c : Char} (h : isWordChar c = true) : c ≠ ':' := by
  intro he
  subst he
  exact absurd h (by decide)

theorem wordChar_ne_tab {c : Char} (h : isWordChar c = true) : c ≠ '\t' := by
  intro he
  subst he
  exact absurd h (by decide)

theorem pyStrip_eq_self (l : List Char) (h : ∀ c ∈ l, isPyWhitespace c = false) :
    pyStrip l = l := by
  unfold pyStrip
  rw [dropWhile_eq_self_of_all l h,
    dropWhile_eq_self_of_all l.reverse (fun c hc => h c (List.mem_reverse.mp hc)),
    List.reverse_reverse]

theorem removeTabs_eq_self (l : List Char) (h : ∀ c ∈ l, c ≠ '\t') :
    removeTabs l = l := by
  unfold removeTabs
  apply List.filter_eq_self.mpr
  intro c hc
  simp [h c hc]

theorem normLine_eq_self_of_word_colon (name : List Char)
    (hw : ∀ c ∈ name, isWordChar c = true) :
    normLine ⟨name ++ [':']⟩ = ⟨name ++ [':']⟩ := by
  have hnw : ∀ c ∈ name ++ [':'], isPyWhitespace c = false := by
    intro c hc
    rcases List.mem_append.mp hc with hc | hc
    · exact wordChar_not_ws (hw c hc)
    · rw [List.mem_singleton.mp hc]; rfl
  have hnt : ∀ c ∈ name ++ [':'], c ≠ '\t' := by
    intro c hc
    intro he
    rw [he] at hc
    exact absurd (hnw '\t' hc) (by decide)
  unfold normLine
  rw [show (⟨name ++ [':']⟩ : String).data = name ++ [':'] from rfl,
    pyStrip_eq_self _ hnw, removeTabs_eq_self _ hnt]

theorem takeWhile_word_colon (name : List Char)
    (hw : ∀ c ∈ name, isWordChar c = true) :
    (name ++ [':']).takeWhile isWordChar = name ∧
    (name ++ [':']).dropWhile isWordChar = [':'] := by
  induction name with
  | nil => constructor <;> rfl
  | cons c rest ih =>
    have hc : isWordChar c = true := hw c (List.mem_cons_self c rest)
    have ih2 := ih (fun x hx => hw x (List.mem_cons_of_mem c hx))
    constructor
    · rw [List.cons_append]
      simp [List.takeWhile_cons, hc, ih2.1]
    · rw [List.cons_append]
      simp [List.dropWhile_cons, hc, ih2.2]

theorem matchesLabelPattern_word_colon (name : List Char) (hne : name ≠ [])
    (hw : ∀ c ∈ name, isWordChar c = true) :
    matchesLabelPattern ⟨name ++ [':']⟩ = true := by
  unfold matchesLabelPattern
  rw [show (⟨name ++ [':']⟩ : String).data = name ++ [':'] from rfl,
    (takeWhile_word_colon name hw).1, (takeWhile_word_colon name hw).2]
  simp [hne]

theorem rstripColon_word_colon (name : List Char)
    (hw : ∀ c ∈ name, isWordChar c = true) :
    rstripColon ⟨name ++ [':']⟩ = ⟨name⟩ := by
  unfold rstripColon
  rw [show (⟨name ++ [':']⟩ : String).data = name ++ [':'] from rfl,
    List.reverse_append]
  simp only [List.reverse_singleton, List.singleton_append, List.dropWhile_cons]
  have hdw : List.dropWhile (fun c => decide (c = ':')) name.reverse = name.reverse :=
    dropWhile_eq_self_of_all name.reverse
      (fun c hc => by simp [wordChar_ne_colon (hw c (List.mem_reverse.mp hc))])
  simp [hdw]

theorem string_word_colon_ne_empty (name : List Char) :
    (⟨name ++ [':']⟩ : String) ≠ "" := by
  intro h
  have : name ++ [':'] = [] := congrArg String.data h
  simp at this

/-! ### Tokenizer lemmas -/

theorem lexRun_comment_skip (post : List Char) :
    ∀ (resume : LexState) (tok : List Char) (acc : List (List Char)),
    (∀ c ∈ post, c ≠ '\n') →
    lexRun post (.comment resume) tok acc = lexRun [] (.comment resume) tok acc := by
  induction post with
  | nil => intro resume tok acc _; rfl
  | cons c rest ih =>
    intro resume tok acc h
    have hc : ¬(c = '\n') := h c (List.mem_cons_self c rest)
    have step : lexRun (c :: rest) (.comment resume) tok acc
        = lexRun rest (.comment resume) tok acc := by
      simp only [lexRun]
      rw [if_neg hc]
    rw [step]
    exact ih resume tok acc (fun x hx => h x (List.mem_cons_of_mem c hx))

theorem lexRun_comment_strip (pre : List Char) :
    ∀ (st : LexState) (tok : List Char) (acc : List (List Char)) (post : List Char),
    (∀ c ∈ pre, c ≠ '\n') → (∀ c ∈ post, c ≠ '\n') →
    notInQuote (stateRun pre st) = true →
    lexRun (pre ++ '#' :: post) st tok acc = lexRun pre st tok acc := by
  induction pre with
  | nil =>
    intro st tok acc post _ hpost hst
    cases st with
    | ws =>
      have step : lexRun ('#' :: post) LexState.ws tok acc
          = lexRun post (.comment .ws) tok acc := by
        simp [lexRun, shlexWhitespace]
      rw [List.nil_append, step, lexRun_comment_skip post .ws tok acc hpost]
      rfl
    | word =>
      have step : lexRun ('#' :: post) LexState.word tok acc
          = lexRun post (.comment .word) tok acc := by
        simp [lexRun, shlexWhitespace]
      rw [List.nil_append, step, lexRun_comment_skip post .word tok acc hpost]
      rfl
    | quote q => exact absurd hst (by simp [stateRun, notInQuote])
    | comment resume =>
      have step : lexRun ('#' :: post) (.comment resume) tok acc
          = lexRun post (.comment resume) tok acc := by
        simp only [lexRun]
        rw [if_neg (show ¬(('#' : Char) = '\n') from by decide)]
      rw [List.nil_append, step, lexRun_comment_skip post resume tok acc hpost]
  | cons c rest ih =>
    intro st tok acc post hpre hpost hst
    have hrest : ∀ x ∈ rest, x ≠ '\n' :=
      fun x hx => hpre x (List.mem_cons_of_mem c hx)
    have hcn : ¬(c = '\n') := hpre c (List.mem_cons_self c rest)
    have hall : ∀ x ∈ rest ++ '#' :: post, x ≠ '\n' := by
      intro x hx
      rcases List.mem_append.mp hx with hx | hx
      · exact hrest x hx
      · rcases List.mem_cons.mp hx with rfl | hx
        · decide
        · exact hpost x hx
    cases st with
    | ws =>
      simp only [stateRun] at hst
      rw [List.cons_append]
      simp only [lexRun]
      by_cases h1 : shlexWhitespace c
      · rw [if_pos h1, if_pos h1]
        rw [if_pos h1] at hst
        exact ih .ws tok acc post hrest hpost hst
      · rw [if_neg h1, if_neg h1]
        rw [if_neg h1] at hst
        by_cases h2 : c = '#'
        · rw [if_pos h2, if_pos h2]
          rw [lexRun_comment_skip (rest ++ '#' :: post) .ws tok acc hall,
            lexRun_comment_skip rest .ws tok acc hrest]
        · rw [if_neg h2, if_neg h2]
          rw [if_neg h2] at hst
          by_cases h3 : isQuoteChar c
          · rw [if_pos h3, if_pos h3]
            rw [if_pos h3] at hst
            exact ih (.quote c) [c] acc post hrest hpost hst
          · rw [if_neg h3, if_neg h3]
            rw [if_neg h3] at hst
            exact ih .word [c] acc post hrest hpost hst
    | word =>
      simp only [stateRun] at hst
      rw [List.cons_append]
      simp only [lexRun]
      by_cases h1 : shlexWhitespace c
      · rw [if_pos h1, if_pos h1]
        rw [if_pos h1] at hst
        exact ih .ws [] (acc ++ [tok]) post hrest hpost hst
      · rw [if_neg h1, if_neg h1]
        rw [if_neg h1] at hst
        by_cases h2 : c = '#'
        · rw [if_pos h2, if_pos h2]
          rw [lexRun_comment_skip (rest ++ '#' :: post) .word tok acc hall,
            lexRun_comment_skip rest .word tok acc hrest]
        · rw [if_neg h2, if_neg h2]
          rw [if_neg h2] at hst
          exact ih .word (tok ++ [c]) acc post hrest hpost hst
    | quote q =>
      simp only [stateRun] at hst
      rw [List.cons_append]
      simp only [lexRun]
      by_cases h1 : c = q
      · rw [if_pos h1, if_pos h1]
        rw [if_pos h1] at hst
        exact ih .ws [] (acc ++ [tok ++ [c]]) post hrest hpost hst
      · rw [if_neg h1, if_neg h1]
        rw [if_neg h1] at hst
        exact ih (.quote q) (tok ++ [c]) acc post hrest hpost hst
    | comment resume =>
      simp only [stateRun] at hst
      rw [List.cons_append]
      simp only [lexRun]
      rw [if_neg hcn, if_neg hcn]
      rw [if_neg hcn] at hst
      exact ih (.comment resume) tok acc post hrest hpost hst

theorem lexRun_quote_tok (mid : List Char) :
    ∀ (q : Char) (tok : List Char) (acc : List (List Char)),
    (∀ c ∈ mid, c ≠ q) →
    lexRun (mid ++ [q]) (.quote q) tok acc = .ok (acc ++ [tok ++ mid ++ [q]]) := by
  induction mid with
  | nil =>
    intro q tok acc _
    rw [List.nil_append]
    simp [lexRun]
  | cons m rest ih =>
    intro q tok acc h
    have hm : ¬(m = q) := h m (List.mem_cons_self m rest)
    have step : lexRun (m :: (rest ++ [q])) (.quote q) tok acc
        = lexRun (rest ++ [q]) (.quote q) (tok ++ [m]) acc := by
      simp only [lexRun]
      rw [if_neg hm]
    rw [List.cons_append, step,
      ih q (tok ++ [m]) acc (fun x hx => h x (List.mem_cons_of_mem m hx))]
    simp

/-! ### Opcode handler lemmas -/

theorem ifCommand_st_eq {labels : List (String × Nat)} {st : RuntimeState}
    {r1 c r2 l : String} {res : CmdResult}
    (h : ifCommand labels st r1 c r2 l = .ok res) : res.st = st := by
  unfold ifCommand at h
  split at h
  · cases h
  · split at h
    · split at h
      · injection h with h2; rw [← h2]
      · cases h
    · injection h with h2; rw [← h2]

theorem jumpCommand_st_eq {labels : List (String × Nat)} {st : RuntimeState}
    {l : String} {res : CmdResult}
    (h : jumpCommand labels st l = .ok res) : res.st = st := by
  unfold jumpCommand at h
  split at h
  · cases h
  · split at h
    · injection h with h2; rw [← h2]
    · cases h

theorem callCommand_registers_eq {labels : List (String × Nat)} {st : RuntimeState}
    {l : String} {res : CmdResult}
    (h : callCommand labels st l = .ok res) : res.st.registers = st.registers := by
  unfold callCommand at h
  split at h
  · cases h
  · rename_i r hr
    injection h with h2
    rw [← h2]
    have := jumpCommand_st_eq hr
    rw [this]

theorem printCommand_st_eq {st : RuntimeState} {r : String} {res : CmdResult}
    (h : printCommand st r = .ok res) : res.st = st := by
  unfold printCommand at h
  split at h
  · cases h
  · injection h with h2; rw [← h2]

theorem returnCommand_registers_eq {st : RuntimeState} {res : CmdResult}
    (h : returnCommand st = .ok res) : res.st.registers = st.registers := by
  unfold returnCommand at h
  split at h
  · injection h with h2; rw [← h2]
  · injection h with h2; rw [← h2]

/-! ### Claim theorems -/

/-- C2: dispatching `CALL L` (with `L` resolving to index `n`) pushes the
pointer to the instruction after the call line (`pc + 1`) onto the end of
the call stack and jumps to `n`; whenever a `RETURN` is later dispatched
in a state whose call stack has that saved value on top (any stack below
it, hence any nesting depth), it pops exactly that value and produces
`pc + 1` as the next pointer, so execution resumes immediately after the
`CALL` line.  The stack is strictly LIFO: `CALL` appends at the end,
`RETURN` pops from the end. -/
theorem c2_call_return_roundtrip (labels : List (String × Nat))
    (ev : String → List (String × Value) → Except String Value)
    (st : RuntimeState) (label : String) (n : Nat)
    (hne : label ≠ "") (hl : find_label labels label = .ok n) :
    dispatch labels ev st "CALL" [label] =
      .ok ⟨{ st with stack := st.stack ++ [st.pc + 1] }, some n, []⟩ ∧
    ∀ (st2 : RuntimeState) (s : List Nat), st2.stack = s ++ [st.pc + 1] →
      dispatch labels ev st2 "RETURN" [] =
        .ok ⟨{ st2 with stack := s }, some (st.pc + 1), []⟩ := by
  constructor
  · have hd : dispatch labels ev st "CALL" [label] = callCommand labels st label := rfl
    have hj : jumpCommand labels st label = .ok ⟨st, some n, []⟩ := by
      unfold jumpCommand
      rw [if_neg hne, hl]
    rw [hd]
    unfold callCommand
    rw [hj]
  · intro st2 s hs
    have hd : dispatch labels ev st2 "RETURN" [] = returnCommand st2 := rfl
    rw [hd]
    unfold returnCommand
    rw [hs]
    rw [if_pos (by simp : (s ++ [st.pc + 1]).length > 0),
      List.getLast?_concat, List.dropLast_concat]

/-- C3: dispatching `IF R1 == R2 L` (all four argument tokens non-empty,
`L` resolving to index `n`) jumps to `n` exactly when the two registers
compare equal under Python `==`, a register missing from the store being
read as the integer `0` for this comparison only; otherwise the next
pointer is `pc + 1`.  The store itself is untouched either way. -/
theorem c3_branch_iff_equal (labels : List (String × Nat))
    (ev : String → List (String × Value) → Except String Value)
    (st : RuntimeState) (r1 r2 lab : String) (n : Nat)
    (h1 : r1 ≠ "") (h2 : r2 ≠ "") (h3 : lab ≠ "")
    (hl : find_label labels lab = .ok n) :
    dispatch labels ev st "IF" [r1, "==", r2, lab] =
      (if pyEq (getD st.registers r1 (Value.int 0))
               (getD st.registers r2 (Value.int 0))
       then .ok ⟨st, some n, []⟩
       else .ok ⟨st, some (st.pc + 1), []⟩) := by
  have hd : dispatch labels ev st "IF" [r1, "==", r2, lab] =
      ifCommand labels st r1 "==" r2 lab := rfl
  rw [hd]
  unfold ifCommand
  have hlen : ([r1, "==", r2, lab].filter (fun a => !(a = ""))).length = 4 := by
    simp [List.filter_cons, h1, h2, h3, show ¬(("==" : String) = "") from by decide]
  rw [if_neg (show ¬(([r1, "==", r2, lab].filter (fun a => !(a = ""))).length ≠ 4)
    from fun hcon => hcon hlen)]
  by_cases hc : pyEq (getD st.registers r1 (Value.int 0))
      (getD st.registers r2 (Value.int 0))
  · rw [if_pos hc, if_pos hc, hl]
  · rw [if_neg hc, if_neg hc]

/-- C5: dispatching any opcode other than assign — branch-if-equal,
jump, call, print or return — never changes the register store: whenever
such a dispatch succeeds, the resulting state has exactly the input
state's register mapping (and a failing dispatch produces no new state
at all).  Only the `LET` handler writes to a register. -/
theorem c5_only_let_mutates (labels : List (String × Nat))
    (ev : String → List (String × Value) → Except String Value)
    (st : RuntimeState) (name : String) (args : List String) (res : CmdResult)
    (hn : name ∈ (["IF", "JUMP", "CALL", "PRINT", "RETURN"] : List String))
    (h : dispatch labels ev st name args = .ok res) :
    res.st.registers = st.registers := by
  fin_cases hn
  · -- IF
    match args with
    | [r1, c, r2, l] =>
      have hd : dispatch labels ev st "IF" [r1, c, r2, l] =
          ifCommand labels st r1 c r2 l := rfl
      rw [hd] at h
      rw [ifCommand_st_eq h]
    | [] => cases h
    | [a1] => cases h
    | [a1, a2] => cases h
    | [a1, a2, a3] => cases h
    | a1 :: a2 :: a3 :: a4 :: a5 :: rest => cases h
  · -- JUMP
    match args with
    | [l] =>
      have hd : dispatch labels ev st "JUMP" [l] = jumpCommand labels st l := rfl
      rw [hd] at h
      rw [jumpCommand_st_eq h]
    | [] => cases h
    | a1 :: a2 :: rest => cases h
  · -- CALL
    match args with
    | [l] =>
      have hd : dispatch labels ev st "CALL" [l] = callCommand labels st l := rfl
      rw [hd] at h
      exact callCommand_registers_eq h
    | [] => cases h
    | a1 :: a2 :: rest => cases h
  · -- PRINT
    match args with
    | [r] =>
      have hd : dispatch labels ev st "PRINT" [r] = printCommand st r := rfl
      rw [hd] at h
      rw [printCommand_st_eq h]
    | [] => cases h
    | a1 :: a2 :: rest => cases h
  · -- RETURN
    match args with
    | [] =>
      have hd : dispatch labels ev st "RETURN" [] = returnCommand st := rfl
      rw [hd] at h
      exact returnCommand_registers_eq h
    | a1 :: rest => cases h

/-- C7: dispatching `RETURN` when the call stack is empty performs no
jump: the handler returns Python `None` (no explicit next pointer) and
leaves the state untouched; and when the execution loop's line number is
that `None`, evaluating the loop condition `None < len(lines)` raises
`TypeError`, so the run halts rather than transferring control to any
saved return address. -/
theorem c7_return_empty_stack (labels : List (String × Nat))
    (ev : String → List (String × Value) → Except String Value)
    (lines : List String) (fuel : Nat) (args : Option (List String))
    (st : RuntimeState) (out : List String)
    (h : st.stack = []) :
    dispatch labels ev st "RETURN" [] = .ok ⟨st, none, []⟩ ∧
    execLoop labels ev lines (fuel + 1) none args st out =
      .error st out "TypeError: not supported between instances of NoneType and int" := by
  constructor
  · have hd : dispatch labels ev st "RETURN" [] = returnCommand st := rfl
    rw [hd]
    unfold returnCommand
    rw [h]
    rw [if_neg (by simp : ¬(([] : List Nat).length > 0))]
  · rfl

/-- C6: preprocessing is deterministic (it is a pure function of the raw
lines) and idempotent: running `prepare_data` a second time on the same
input — with the label dictionary already populated by the first run, as
happens on the interpreter object — returns the identical normalized
instruction sequence and leaves the label table identical, because every
dictionary assignment of the second pass rewrites an existing key with
the value it already has. -/
theorem c6_preprocess_idempotent (lines : List String) :
    prepare_data (prepare_data [] lines).2 lines = prepare_data [] lines := by
  have h0 : prepare_data [] lines =
      (normalize lines, buildDict [] (opsFrom 0 lines)) := prepare_data_eq [] lines
  rw [h0, prepare_data_eq]
  simp [buildDict_idem]

/-- C8: the execution loop filters the token `:=` (and the token
consisting of a single space) out of the argument list before handing it
to an opcode handler, so no handler ever receives a `:=` token; in
particular the line `LET R0 := 1 + 2` is dispatched identically to
`LET R0 1 + 2`. -/
theorem c8_assign_arrow_filtered (labels : List (String × Nat))
    (ev : String → List (String × Value) → Except String Value)
    (st : RuntimeState) (args : Option (List String)) :
    (∀ toks : List String, ":=" ∉ filterCommandArgs toks) ∧
    execStep labels ev ["LET R0 := 1 + 2"] st 0 args =
      execStep labels ev ["LET R0 1 + 2"] st 0 args := by
  constructor
  · intro toks hmem
    have hp := List.of_mem_filter hmem
    simp at hp
  · rfl

/-- C9: when the line at an index of the normalized sequence is a label
declaration (its first token ends in a colon), executing that line
dispatches no opcode — the token cannot name a command — and only
advances the pointer by one, leaving registers, stack and the stale
`command_args` untouched; consequently one loop iteration starting at
such an index continues at the following index, so a jump, call or taken
branch that lands on a label line reaches the instruction after the
label after one skipped step. -/
theorem c9_label_line_skipped (labels : List (String × Nat))
    (ev : String → List (String × Value) → Except String Value)
    (lines : List String) (fuel : Nat) (st : RuntimeState)
    (args : Option (List String)) (out : List String)
    (i : Nat) (t : String) (ts : List String)
    (hi : i < lines.length)
    (htok : tokenize_line (lines.getD i "") = .ok (t :: ts))
    (hcolon : endsWithColon t = true) :
    execStep labels ev lines st i args = .ok ({ st with pc := i }, some (i + 1), args, []) ∧
    execLoop labels ev lines (fuel + 1) (some i) args st out =
      execLoop labels ev lines fuel (some (i + 1)) args { st with pc := i } out := by
  have hnc : ¬(t ∈ commandNames) := by
    intro hmem
    fin_cases hmem <;> exact absurd hcolon (by decide)
  have hstep : execStep labels ev lines st i args =
      .ok ({ st with pc := i }, some (i + 1), args, []) := by
    simp only [execStep]
    rw [htok]
    simp only [if_pos hcolon, if_neg hnc]
  refine ⟨hstep, ?_⟩
  simp only [execLoop]
  rw [if_pos hi, hstep]
  simp

/-- C10: the tokenizer is a pure function of its line; an unquoted `#`
(one reached while the lexer is not inside a quoted token) discards
itself and everything after it on the line, so appending `# ...` to a
line changes nothing about its token list; and a quoted token is kept
whole — whitespace between its quotes causes no split. -/
theorem c10_comment_and_quotes (pre post mid : List Char) (q : Char)
    (h1 : ∀ c ∈ pre, c ≠ '\n') (h2 : ∀ c ∈ post, c ≠ '\n')
    (h3 : notInQuote (stateRun pre .ws) = true)
    (h4 : isQuoteChar q = true) (h5 : ∀ c ∈ mid, c ≠ q) :
    tokenize_line ⟨pre ++ '#' :: post⟩ = tokenize_line ⟨pre⟩ ∧
    tokenize_line ⟨q :: (mid ++ [q])⟩ = .ok [⟨q :: (mid ++ [q])⟩] := by
  constructor
  · unfold tokenize_line
    rw [show (⟨pre ++ '#' :: post⟩ : String).data = pre ++ '#' :: post from rfl,
      show (⟨pre⟩ : String).data = pre from rfl,
      lexRun_comment_strip pre .ws [] [] post h1 h2 h3]
  · unfold tokenize_line
    rw [show (⟨q :: (mid ++ [q])⟩ : String).data = q :: (mid ++ [q]) from rfl]
    have hqw : ¬(shlexWhitespace q = true) := by
      simp only [isQuoteChar, Bool.or_eq_true, decide_eq_true_eq] at h4
      rcases h4 with rfl | rfl <;> decide
    have hqh : ¬(q = '#') := by
      simp only [isQuoteChar, Bool.or_eq_true, decide_eq_true_eq] at h4
      rcases h4 with rfl | rfl <;> decide
    have step : lexRun (q :: (mid ++ [q])) .ws [] [] =
        lexRun (mid ++ [q]) (.quote q) [q] [] := by
      simp only [lexRun]
      rw [if_neg hqw, if_neg hqh, if_pos h4]
    rw [step, lexRun_quote_tok mid q [q] [] h5]
    simp

/-- C1, counterexample: in the two-line program `L:` then `LET R0 1`,
the instruction `LET R0 1` occupies index 1 of the normalized sequence,
but the label table maps `L` to 0 — the index of the label line itself —
not to 1, the index the claim requires. -/
theorem c1_counterexample :
    (prepare_data [] ["L:", "LET R0 1"]).1[1]? = some "LET R0 1" ∧
    lookup? (prepare_data [] ["L:", "LET R0 1"]).2 "L" = some 0 ∧
    ¬(lookup? (prepare_data [] ["L:", "LET R0 1"]).2 "L" = some 1) :=
  ⟨rfl, rfl, by decide⟩

/-- C1, amended: for a raw source `pre ++ [«name:»] ++ blanks ++ [x] ++ post`
in which the label declaration `name:` is immediately followed (ignoring
blank lines, which occupy no slot) by a retained instruction `x`, the
label table maps `name` to the index of the *label line itself* in the
normalized sequence — one less than the index `x` occupies — provided
`name` is not declared again from `x` onwards.  (The claim as frozen
said the label maps to `x`'s own index; the execution loop separately
skips label lines, which is how control still reaches `x`.) -/
theorem c1_label_maps_to_own_line (pre blanks post : List String) (name x : String)
    (hname1 : name.data ≠ []) (hname2 : ∀ c ∈ name.data, isWordChar c = true)
    (hblanks : ∀ b ∈ blanks, normLine b = "")
    (hx : ¬(normLine x = ""))
    (hnodup : ∀ l ∈ x :: post, ¬(matchesLabelPattern (normLine l) = true ∧
        rstripColon (normLine l) = name)) :
    lookup? (prepare_data [] (pre ++ (name ++ ":") :: (blanks ++ x :: post))).2 name
      = some (normalize pre).length ∧
    (prepare_data [] (pre ++ (name ++ ":") :: (blanks ++ x :: post))).1[(normalize pre).length + 1]?
      = some (normLine x) := by
  have hLd : (name ++ ":").data = name.data ++ [':'] := by
    rw [String.data_append]
  have hLstr : name ++ ":" = (⟨name.data ++ [':']⟩ : String) := by
    cases hdd : name ++ ":"
    rw [← hLd, hdd]
  have hmk : (⟨name.data⟩ : String) = name := by cases name; rfl
  have hnorm : normLine (name ++ ":") = name ++ ":" := by
    rw [hLstr]
    exact normLine_eq_self_of_word_colon name.data hname2
  have hmatch : matchesLabelPattern (normLine (name ++ ":")) = true := by
    rw [hnorm, hLstr]
    exact matchesLabelPattern_word_colon name.data hname1 hname2
  have hrstrip : rstripColon (normLine (name ++ ":")) = name := by
    rw [hnorm, hLstr, rstripColon_word_colon name.data hname2, hmk]
  have hLne : ¬(normLine (name ++ ":") = "") := by
    rw [hnorm, hLstr]
    exact string_word_colon_ne_empty name.data
  have hblanksN : normalize blanks = [] := normalize_eq_nil blanks hblanks
  have hblanksO : ∀ w : Nat, opsFrom w blanks = [] :=
    opsFrom_eq_nil blanks hblanks
  -- the normalized sequence
  have hnormseq : normalize (pre ++ (name ++ ":") :: (blanks ++ x :: post)) =
      normalize pre ++ (name ++ ":") :: normLine x :: normalize post := by
    rw [normalize_append]
    congr 1
    rw [show normalize ((name ++ ":") :: (blanks ++ x :: post)) =
        normLine (name ++ ":") :: normalize (blanks ++ x :: post) from by
      rw [normalize]; simp [hLne]]
    rw [hnorm, normalize_append, hblanksN, List.nil_append]
    rw [show normalize (x :: post) = normLine x :: normalize post from by
      rw [normalize]; simp [hx]]
  -- the assignment sequence
  have hops : opsFrom 0 (pre ++ (name ++ ":") :: (blanks ++ x :: post)) =
      opsFrom 0 pre ++ (name, (normalize pre).length) ::
        opsFrom ((normalize pre).length + 1) (x :: post) := by
    rw [opsFrom_append, Nat.zero_add]
    congr 1
    rw [show opsFrom (normalize pre).length ((name ++ ":") :: (blanks ++ x :: post)) =
        (rstripColon (normLine (name ++ ":")), (normalize pre).length) ::
          opsFrom ((normalize pre).length + 1) (blanks ++ x :: post) from by
      rw [opsFrom]; simp [hLne, hmatch]]
    rw [hrstrip, opsFrom_append, hblanksO, hblanksN]
    simp
  have hlastpost : lastVal (opsFrom ((normalize pre).length + 1) (x :: post)) name
      = none := by
    apply lastVal_eq_none
    intro hmem
    rcases mem_keysOf_opsFrom (x :: post) _ name hmem with ⟨l, hl, hm, hr⟩
    exact hnodup l hl ⟨hm, hr⟩
  constructor
  · rw [prepare_data_eq]
    simp only []
    rw [hops, lookup?_buildDict, lastVal_append, lastVal_cons, hlastpost]
    simp
  · rw [prepare_data_eq]
    simp only []
    rw [hnormseq, List.getElem?_append_right (by omega : (normalize pre).length ≤ (normalize pre).length + 1)]
    have harith : (normalize pre).length + 1 - (normalize pre).length = 1 := by omega
    rw [harith]
    simp

/-- C4: when the target of an assign instruction fails the fixed
register pattern `R0`..`R9` (for example `LET X9 1`), the handler raises
the invalid-register error before evaluating anything and before any
write: the dispatch produces only the error, a full loop iteration on
such a line aborts the run with that error, and the state it leaves
behind has every register exactly as before. -/
theorem c4_let_invalid_register (labels : List (String × Nat))
    (ev : String → List (String × Value) → Except String Value)
    (lines : List String) (fuel ln : Nat) (args : Option (List String))
    (st : RuntimeState) (out : List String)
    (register : String) (exprs toks : List String)
    (hreg : validRegisterName register = false)
    (hln : ln < lines.length)
    (htok : tokenize_line (lines.getD ln "") = .ok ("LET" :: toks))
    (hargs : filterCommandArgs toks = register :: exprs) :
    letCommand ev st register exprs =
      .error ("Invalid register: " ++ register ++
        ". Register must be in the range [R0, R9].") ∧
    execLoop labels ev lines (fuel + 1) (some ln) args st out =
      .error { st with pc := ln } out
        ("Invalid register: " ++ register ++
          ". Register must be in the range [R0, R9].") ∧
    ({ st with pc := ln } : RuntimeState).registers = st.registers := by
  have hlet : ∀ stx : RuntimeState, letCommand ev stx register exprs =
      .error ("Invalid register: " ++ register ++
        ". Register must be in the range [R0, R9].") := by
    intro stx
    unfold letCommand
    rw [if_neg (show ¬(validRegisterName register = true) from by
      rw [hreg]; exact Bool.false_ne_true)]
  have hstep : execStep labels ev lines st ln args =
      .error ({ st with pc := ln },
        "Invalid register: " ++ register ++
          ". Register must be in the range [R0, R9].") := by
    simp only [execStep]
    rw [htok]
    simp only [if_neg (show ¬(endsWithColon "LET" = true) from by decide),
      if_pos (show ("LET" : String) ∈ commandNames from by decide)]
    rw [hargs]
    rw [show dispatch labels ev { st with pc := ln } "LET" (register :: exprs) =
      letCommand ev { st with pc := ln } register exprs from rfl]
    rw [hlet]
  refine ⟨hlet st, ?_, rfl⟩
  simp only [execLoop]
  rw [if_pos hln, hstep]

/-! ### Witnesses -/

/-- Witness for C1 (amended): the source `L:` followed by a blank line
and `LET R0 1` maps `L` to 0 — its own index — and the instruction sits
at index 1. -/
theorem c1_label_maps_to_own_line_witness :
    lookup? (prepare_data []
        (([] : List String) ++ ("L" ++ ":") :: ([""] ++ "LET R0 1" :: []))).2 "L"
      = some (normalize ([] : List String)).length ∧
    (prepare_data []
        (([] : List String) ++ ("L" ++ ":") :: ([""] ++ "LET R0 1" :: []))).1[(normalize ([] : List String)).length + 1]?
      = some (normLine "LET R0 1") :=
  c1_label_maps_to_own_line [] [""] [] "L" "LET R0 1"
    (by decide) (by decide) (by decide) (by decide) (by decide)

/-- Witness for C2: a `CALL L` at `pc = 5` over stack `[7]` pushes 6 and
jumps to 0; a later `RETURN` over stack `[2, 6]` pops the 6 and resumes
at 6. -/
theorem c2_call_return_roundtrip_witness :
    ("L" : String) ≠ "" ∧
    find_label [("L", 0)] "L" = .ok 0 ∧
    dispatch [("L", 0)] evConst ⟨[], 5, [7]⟩ "CALL" ["L"] =
      .ok ⟨⟨[], 5, [7, 6]⟩, some 0, []⟩ ∧
    dispatch [("L", 0)] evConst ⟨[("R0", Value.int 3)], 9, [2, 6]⟩ "RETURN" [] =
      .ok ⟨⟨[("R0", Value.int 3)], 9, [2]⟩, some 6, []⟩ := by
  have h := c2_call_return_roundtrip [("L", 0)] evConst ⟨[], 5, [7]⟩ "L" 0
    (by decide) rfl
  exact ⟨by decide, rfl, h.1, h.2 ⟨[("R0", Value.int 3)], 9, [2, 6]⟩ [2] rfl⟩

/-- Witness for C3: with `R1 = 3` and `R2` unset (hence 0), the branch
falls through to `pc + 1`. -/
theorem c3_branch_iff_equal_witness :
    ("R1" : String) ≠ "" ∧ ("R2" : String) ≠ "" ∧ ("L" : String) ≠ "" ∧
    find_label [("L", 2)] "L" = .ok 2 ∧
    dispatch [("L", 2)] evConst ⟨[("R1", Value.int 3)], 4, []⟩ "IF"
        ["R1", "==", "R2", "L"] =
      .ok ⟨⟨[("R1", Value.int 3)], 4, []⟩, some 5, []⟩ := by
  refine ⟨by decide, by decide, by decide, rfl, ?_⟩
  rw [c3_branch_iff_equal [("L", 2)] evConst ⟨[("R1", Value.int 3)], 4, []⟩
    "R1" "R2" "L" 2 (by decide) (by decide) (by decide) rfl]
  rfl

/-- Witness for C4: running the one-line program `LET X9 1` aborts with
the invalid-register error and the register store is unchanged. -/
theorem c4_let_invalid_register_witness :
    validRegisterName "X9" = false ∧
    tokenize_line "LET X9 1" = .ok ["LET", "X9", "1"] ∧
    (letCommand evConst ⟨[("R0", Value.int 7)], 0, []⟩ "X9" ["1"] =
      .error "Invalid register: X9. Register must be in the range [R0, R9]." ∧
    execLoop [] evConst ["LET X9 1"] 1 (some 0) none ⟨[("R0", Value.int 7)], 0, []⟩ [] =
      .error ⟨[("R0", Value.int 7)], 0, []⟩ []
        "Invalid register: X9. Register must be in the range [R0, R9]." ∧
    (⟨[("R0", Value.int 7)], 0, []⟩ : RuntimeState).registers =
      [("R0", Value.int 7)]) :=
  ⟨by decide, rfl,
    c4_let_invalid_register [] evConst ["LET X9 1"] 0 0 none
      ⟨[("R0", Value.int 7)], 0, []⟩ [] "X9" ["1"] ["X9", "1"]
      (by decide) (by decide) rfl rfl⟩

/-- Witness for C5: dispatching `RETURN` (a non-assign opcode) leaves
the register store equal to what it was. -/
theorem c5_only_let_mutates_witness :
    ("RETURN" : String) ∈ (["IF", "JUMP", "CALL", "PRINT", "RETURN"] : List String) ∧
    dispatch [] evConst ⟨[("R3", Value.bool true)], 2, [4]⟩ "RETURN" [] =
      .ok ⟨⟨[("R3", Value.bool true)], 2, []⟩, some 4, []⟩ ∧
    (⟨⟨[("R3", Value.bool true)], 2, []⟩, some 4, []⟩ : CmdResult).st.registers =
      (⟨[("R3", Value.bool true)], 2, [4]⟩ : RuntimeState).registers :=
  ⟨by decide, rfl,
    c5_only_let_mutates [] evConst ⟨[("R3", Value.bool true)], 2, [4]⟩ "RETURN" []
      ⟨⟨[("R3", Value.bool true)], 2, []⟩, some 4, []⟩ (by decide) rfl⟩

/-- Witness for C7: `RETURN` over an empty stack yields no pointer and
the next loop test aborts with the `TypeError`. -/
theorem c7_return_empty_stack_witness :
    (⟨[], 3, []⟩ : RuntimeState).stack = [] ∧
    dispatch [] evConst ⟨[], 3, []⟩ "RETURN" [] = .ok ⟨⟨[], 3, []⟩, none, []⟩ ∧
    execLoop [] evConst ["PRINT R0"] 1 none none ⟨[], 3, []⟩ [] =
      .error ⟨[], 3, []⟩ []
        "TypeError: not supported between instances of NoneType and int" := by
  have h := c7_return_empty_stack [] evConst ["PRINT R0"] 0 none ⟨[], 3, []⟩ [] rfl
  exact ⟨rfl, h.1, h.2⟩

/-- Witness for C9: the one-line program `FOO:` is recognized as a label
line; the iteration dispatches nothing and moves from index 0 to 1. -/
theorem c9_label_line_skipped_witness :
    0 < (["FOO:"] : List String).length ∧
    tokenize_line ((["FOO:"] : List String).getD 0 "") = .ok ["FOO:"] ∧
    endsWithColon "FOO:" = true ∧
    execStep [] evConst ["FOO:"] ⟨[], 0, []⟩ 0 none =
      .ok (⟨[], 0, []⟩, some 1, none, []) ∧
    execLoop [] evConst ["FOO:"] 1 (some 0) none ⟨[], 0, []⟩ [] =
      execLoop [] evConst ["FOO:"] 0 (some 1) none ⟨[], 0, []⟩ [] := by
  have h := c9_label_line_skipped [] evConst ["FOO:"] 0 ⟨[], 0, []⟩ none []
    0 "FOO:" [] (by decide) rfl (by decide)
  exact ⟨by decide, rfl, by decide, h.1, h.2⟩

/-- Witness for C10: appending `# comment` to `PRINT R0 ` changes the
token list not at all, and `"a b"` lexes as the single token `"a b"`. -/
theorem c10_comment_and_quotes_witness :
    (∀ c ∈ ("PRINT R0 ").data, c ≠ '\n') ∧
    (∀ c ∈ (" comment").data, c ≠ '\n') ∧
    notInQuote (stateRun ("PRINT R0 ").data .ws) = true ∧
    isQuoteChar '"' = true ∧
    (∀ c ∈ ("a b").data, c ≠ '"') ∧
    tokenize_line ⟨("PRINT R0 ").data ++ '#' :: (" comment").data⟩ =
      tokenize_line ⟨("PRINT R0 ").data⟩ ∧
    tokenize_line ⟨'"' :: (("a b").data ++ ['"'])⟩ =
      .ok [⟨'"' :: (("a b").data ++ ['"'])⟩] := by
  have h := c10_comment_and_quotes ("PRINT R0 ").data (" comment").data
    ("a b").data '"' (by decide) (by decide) (by decide) (by decide) (by decide)
  exact ⟨by decide, by decide, by decide, by decide, by decide, h.1, h.2⟩

end AuroraHw
